import Mathlib

/-!
# kubevirt-commandline-hook: the `OnDefineDomain` callback

A shallow embedding of `src/commandline.go`.  The callback decodes the VMI, parses the domain
XML with `github.com/clbanning/mxj`, reads the values at `domain.qemu:commandline.qemu:arg`,
appends one entry per annotation carrying the prefix `arg.commandline.vm.kubevirt.io/`,
writes the merged list back with `UpdateValuesForPath` and serialises the tree.

* Go strings are byte sequences (`GoString`).
* The tree that `mxj` builds (`map[string]interface{}`, `[]interface{}`, `string`, and the
  `mxj.Map` literals the hook itself creates) is the type `Value`.
* `ValuesForPath` and `UpdateValuesForPath` are the path functions of the `mxj` library, in the
  fragment the hook reaches: no sub-key filters, no `*` wildcard, no array index in the path.
  In-place mutation of the tree is rendered as a function returning the mutated tree.
* `json.Unmarshal`, `mxj.NewMapXml`, `Map.Xml` and the order in which `range` visits a Go map
  are external to the repository; they are the fields of `Externals`.
* `mxj.NewMapXml` keys every element by `xml.Name.Local`, the tag without its name space
  prefix: `<qemu:commandline>` is stored under `commandline`.  The predicate `localKeysFields`
  states this of a tree; the theorems about parsed documents take it as a hypothesis on the
  tree the parser returns.
* A Go `panic` is the `Except.error` result.
-/

namespace CommandlineHook

/-! ## Go strings -/

/-- A Go string: a sequence of bytes. -/
abbrev GoString := List UInt8

/-- The bytes of an ASCII literal. -/
def ascii (s : String) : GoString := s.toList.map (fun c => c.toNat.toUInt8)

/-- Go `strings.HasPrefix(s, pre)`: `len(s) >= len(pre) && s[0:len(pre)] == pre`. -/
def HasPrefix (s pre : GoString) : Bool :=
  decide (s.length ≥ pre.length) && (s.take pre.length == pre)

/-- Go slice expression `s[low:]`; `none` is the run-time panic "slice bounds out of range". -/
def sliceFrom (s : GoString) (low : Nat) : Option GoString :=
  if low ≤ s.length then some (s.drop low) else none

/-- Go `strings.Split(s, sep)` for a one-byte separator. -/
def Split (sep : UInt8) : GoString → List GoString
  | [] => [[]]
  | c :: cs =>
    if c = sep then [] :: Split sep cs
    else
      match Split sep cs with
      | [] => [[c]]
      | w :: ws => (c :: w) :: ws

/-! ## The mxj tree -/

/-- A value held in an `interface{}` of the tree built by `mxj`. -/
inductive Value where
  /-- A Go `string` (element text or attribute value). -/
  | str (s : GoString)
  /-- A `map[string]interface{}`: an element with attributes (keys starting with `-`) and children. -/
  | map (fields : List (GoString × Value))
  /-- A value of the named type `mxj.Map`; type switches on `map[string]interface{}` do not match it. -/
  | mxjMap (fields : List (GoString × Value))
  /-- A `[]interface{}`: repeated sibling elements. -/
  | list (items : List Value)

/-- The entries of a Go map with string keys. -/
abbrev Fields := List (GoString × Value)

instance : Inhabited Value := ⟨.str []⟩

mutual
/-- Decidable equality of tree values. -/
def Value.decEq : (a b : Value) → Decidable (a = b)
  | .str s, .str t =>
    if h : s = t then isTrue (by rw [h]) else isFalse (by intro e; cases e; exact h rfl)
  | .map f, .map g =>
    match decEqFields f g with
    | isTrue h => isTrue (by rw [h])
    | isFalse h => isFalse (by intro e; cases e; exact h rfl)
  | .mxjMap f, .mxjMap g =>
    match decEqFields f g with
    | isTrue h => isTrue (by rw [h])
    | isFalse h => isFalse (by intro e; cases e; exact h rfl)
  | .list f, .list g =>
    match decEqItems f g with
    | isTrue h => isTrue (by rw [h])
    | isFalse h => isFalse (by intro e; cases e; exact h rfl)
  | .str _, .map _ => isFalse (by intro e; cases e)
  | .str _, .mxjMap _ => isFalse (by intro e; cases e)
  | .str _, .list _ => isFalse (by intro e; cases e)
  | .map _, .str _ => isFalse (by intro e; cases e)
  | .map _, .mxjMap _ => isFalse (by intro e; cases e)
  | .map _, .list _ => isFalse (by intro e; cases e)
  | .mxjMap _, .str _ => isFalse (by intro e; cases e)
  | .mxjMap _, .map _ => isFalse (by intro e; cases e)
  | .mxjMap _, .list _ => isFalse (by intro e; cases e)
  | .list _, .str _ => isFalse (by intro e; cases e)
  | .list _, .map _ => isFalse (by intro e; cases e)
  | .list _, .mxjMap _ => isFalse (by intro e; cases e)
/-- Decidable equality of map entries. -/
def decEqFields : (a b : List (GoString × Value)) → Decidable (a = b)
  | [], [] => isTrue rfl
  | [], _ :: _ => isFalse (by intro e; cases e)
  | _ :: _, [] => isFalse (by intro e; cases e)
  | (k, v) :: r, (k2, v2) :: r2 =>
    if hk : k = k2 then
      match Value.decEq v v2 with
      | isTrue hv =>
        match decEqFields r r2 with
        | isTrue hr => isTrue (by rw [hk, hv, hr])
        | isFalse hr => isFalse (by intro e; cases e; exact hr rfl)
      | isFalse hv => isFalse (by intro e; cases e; exact hv rfl)
    else isFalse (by intro e; cases e; exact hk rfl)
/-- Decidable equality of lists of values. -/
def decEqItems : (a b : List Value) → Decidable (a = b)
  | [], [] => isTrue rfl
  | [], _ :: _ => isFalse (by intro e; cases e)
  | _ :: _, [] => isFalse (by intro e; cases e)
  | v :: r, v2 :: r2 =>
    match Value.decEq v v2 with
    | isTrue hv =>
      match decEqItems r r2 with
      | isTrue hr => isTrue (by rw [hv, hr])
      | isFalse hr => isFalse (by intro e; cases e; exact hr rfl)
    | isFalse hv => isFalse (by intro e; cases e; exact hv rfl)
end

instance : DecidableEq Value := Value.decEq

/-- Go map lookup `v, ok := m[k]`. -/
def mapIndex : Fields → GoString → Option Value
  | [], _ => none
  | (k', v) :: rest, k => if k' = k then some v else mapIndex rest k

/-- Go map assignment `m[k] = v`: the entry for `k` is replaced, or added when there is none. -/
def mapAssign : Fields → GoString → Value → Fields
  | [], k, v => [(k, v)]
  | (k', v') :: rest, k, v =>
    if k' = k then (k, v) :: rest else (k', v') :: mapAssign rest k v

/-! ## mxj: reading the values at a path -/

/-- The mxj function `valuesForKeyPath` without sub-keys: collects into the result the values
reached from `m` by following `keys`, expanding a list found at the end of the path and
looking into the members of a list met on the way. -/
def valuesForKeyPath : Value → List GoString → List Value
  | m, [] =>
    match m with
    | .map _ => [m]
    | .list l => l
    | _ => [m]
  | m, key :: keys =>
    match m with
    | .map f =>
      match mapIndex f key with
      | some v => valuesForKeyPath v keys
      | none => []
    | .list l =>
      l.flatMap (fun v =>
        match v with
        | .map f =>
          match mapIndex f key with
          | some vv => valuesForKeyPath vv keys
          | none => []
        | _ => [])
    | _ => []

/-- The keys of a dot-separated path, as `oldValuesForPath` computes them: `strings.Split`
on `.`, dropping one trailing empty key. -/
def pathKeys (path : GoString) : List GoString :=
  let keys := Split 46 path
  if keys.getLast? = some [] then keys.dropLast else keys

/-- The mxj method `Map.ValuesForPath(path)` for a path without array index (no `[`), which
goes through `oldValuesForPath`: the values and a nil error. -/
def ValuesForPath (mv : Fields) (path : GoString) : List Value × Option GoString :=
  (valuesForKeyPath (.map mv) (pathKeys path), none)

/-! ## mxj: replacing the values at a path -/

/-- The loop of `updateValue` over the members of a list: every member that is a map holding
the key `present` gets `member[key] = value`. -/
def assignInMember (present key : GoString) (value : Value) : Value → Value
  | .map f => if (mapIndex f present).isSome then .map (mapAssign f key value) else .map f
  | v => v

/-- Whether `assignInMember` changes the member (it counts as one update). -/
def memberHit (present : GoString) : Value → Bool
  | .map f => (mapIndex f present).isSome
  | _ => false

/-- The mxj function `updateValue` without sub-keys, at the node `m` that the path reaches
before its last key `keys0`; returns the node after the update and the number of updates. -/
def updateValue (key : GoString) (value : Value) (m : Value) (keys0 : GoString) : Value × Nat :=
  match m with
  | .map f =>
    if key = keys0 then
      -- every case of the switch on `endVal` assigns `m[keys0] = value`
      (.map (mapAssign f keys0 value), 1)
    else
      match mapIndex f keys0 with
      | some (.map e) =>
        if (mapIndex e key).isSome then
          (.map (mapAssign f keys0 (.map (mapAssign e key value))), 1)
        else (m, 0)
      | some (.list l) =>
        (.map (mapAssign f keys0 (.list (l.map (assignInMember key key value)))),
          l.countP (memberHit key))
      | _ => (m, 0)
  | .list l => (.list (l.map (assignInMember keys0 key value)), l.countP (memberHit keys0))
  | _ => (m, 0)

/-- The mxj function `updateValuesForKeyPath` without sub-keys and wildcards: follows `keys`
down to the last one, where `updateValue` applies.  A key that is missing on the way ends the
walk without any update: no node is created. -/
def updateValuesForKeyPath (key : GoString) (value : Value) : Value → List GoString → Value × Nat
  | m, [] => (m, 0)
  | m, [keys0] => updateValue key value m keys0
  | m, k :: k2 :: ks =>
    match m with
    | .map f =>
      match mapIndex f k with
      | some v =>
        (.map (mapAssign f k (updateValuesForKeyPath key value v (k2 :: ks)).1),
          (updateValuesForKeyPath key value v (k2 :: ks)).2)
      | none => (m, 0)
    | .list l =>
      (.list (l.map (fun v =>
          match v with
          | .map f =>
            match mapIndex f k with
            | some vv => .map (mapAssign f k (updateValuesForKeyPath key value vv (k2 :: ks)).1)
            | none => v
          | _ => v)),
        (l.map (fun v =>
          match v with
          | .map f =>
            match mapIndex f k with
            | some vv => (updateValuesForKeyPath key value vv (k2 :: ks)).2
            | none => 0
          | _ => 0)).sum)
    | _ => (m, 0)

/-- The entries of a tree root after an update (an update of a map is a map). -/
def rootFields (orig : Fields) : Value → Fields
  | .map f => f
  | _ => orig

/-- The mxj method `Map.UpdateValuesForPath(newVal, path)` with `newVal` a map: the map after
the update, the number of updated values and the error (`newVal` must have exactly one entry). -/
def UpdateValuesForPath (mv : Fields) (newVal : Fields) (path : GoString) :
    Fields × Nat × Option GoString :=
  match newVal with
  | [(key, val)] =>
    let r := updateValuesForKeyPath key val (.map mv) (Split 46 path)
    (rootFields mv r.1, r.2, none)
  | _ => (mv, 0, some (ascii "newVal map can only have len == 1"))

/-! ## The hook -/

/-- The part of `vmSchema.VirtualMachineInstance` the hook reads: the annotations, a Go
`map[string]string` given by its entries. -/
structure VirtualMachineInstance where
  Annotations : List (GoString × GoString)

/-- The request `hooksV1alpha2.OnDefineDomainParams`. -/
structure OnDefineDomainParams where
  Vmi : List UInt8
  DomainXML : List UInt8

/-- The response `hooksV1alpha2.OnDefineDomainResult`. -/
structure OnDefineDomainResult where
  DomainXML : List UInt8
deriving DecidableEq

/-- The value of a Go panic raised by the hook. -/
inductive PanicValue where
  /-- The call `panic(err)` with a non-nil error. -/
  | err (e : GoString)
  /-- The call `panic(err)` with a nil error. -/
  | nilError
  /-- The run-time error of a slice expression out of range. -/
  | sliceBounds
deriving DecidableEq

/-- Decidable equality of the results of a call. -/
instance decEqExcept {ε α : Type} [DecidableEq ε] [DecidableEq α] : DecidableEq (Except ε α)
  | .ok a, .ok b =>
    if h : a = b then isTrue (by rw [h]) else isFalse (by intro e; cases e; exact h rfl)
  | .error a, .error b =>
    if h : a = b then isTrue (by rw [h]) else isFalse (by intro e; cases e; exact h rfl)
  | .ok _, .error _ => isFalse (by intro e; cases e)
  | .error _, .ok _ => isFalse (by intro e; cases e)

/-- What the hook calls outside the repository. -/
structure Externals where
  /-- The call `json.Unmarshal(vmiJSON, &vmiSpec)`: the decoded VMI and the error. -/
  jsonUnmarshal : List UInt8 → VirtualMachineInstance × Option GoString
  /-- The order in which `for key, value := range annotations` visits the entries of a map. -/
  rangeOrder : List (GoString × GoString) → List (GoString × GoString)
  /-- A `range` loop visits every entry of the map exactly once. -/
  rangeOrder_perm : ∀ m, (rangeOrder m).Perm m
  /-- The call `mxj.NewMapXml(domainXML)`: the map (possibly nil) and the error. -/
  NewMapXml : List UInt8 → Option Fields × Option GoString
  /-- The call `domainSpec.Xml()`: the text and the error. -/
  Xml : Fields → List UInt8 × Option GoString

/-- The annotation prefix tested by the hook. -/
def annotationPrefix : GoString := ascii "arg.commandline.vm.kubevirt.io/"

/-- The path of the argument entries in the domain tree. -/
def argPath : GoString := ascii "domain.qemu:commandline.qemu:arg"

/-- The key of the root element, first key of the path. -/
def domainKey : GoString := ascii "domain"

/-- The key of the command-line block, second key of the path. -/
def commandlineKey : GoString := ascii "qemu:commandline"

/-- The key of the argument entries: last key of the path and key of the map
`mxj.Map{"qemu:arg": argsSpec}` given to `UpdateValuesForPath`. -/
def argKey : GoString := ascii "qemu:arg"

/-- The entry the hook builds for an argument: `mxj.Map{"-value": arg}`. -/
def argEntry (arg : GoString) : Value := .mxjMap [(ascii "-value", .str arg)]

/-- The loop `for key, value := range annotations` (lines 72-80), over the entries in the
order they are visited, starting from the slice `argsSpec`. -/
def appendArgs : List (GoString × GoString) → List Value → Except PanicValue (List Value)
  | [], argsSpec => .ok argsSpec
  | (key, value) :: rest, argsSpec =>
    if HasPrefix key annotationPrefix then
      match sliceFrom key 31 with
      | none => .error .sliceBounds
      | some flag => appendArgs rest (argsSpec ++ [argEntry (ascii "-" ++ flag ++ ascii "=" ++ value)])
    else appendArgs rest argsSpec

/-- Lines 65-88 of `OnDefineDomain`: read the argument entries, append the derived ones and
write the merged list back; the result is the tree the hook then serialises. -/
def mutateDomainSpec (visited : List (GoString × GoString)) (domainSpec : Fields) :
    Except PanicValue Fields :=
  match ValuesForPath domainSpec argPath with
  | (_, some e) => .error (.err e)
  | (argsSpec, none) =>
    match appendArgs visited argsSpec with
    | .error p => .error p
    | .ok argsSpec =>
      match UpdateValuesForPath domainSpec [(argKey, .list argsSpec)] argPath with
      | (_, _, some e) => .error (.err e)
      | (domainSpec, _, none) => .ok domainSpec

/-- Lines 90-99 of `OnDefineDomain`: serialise the tree and return the result. -/
def respond (ext : Externals) (domainSpec : Fields) : Except PanicValue OnDefineDomainResult :=
  match ext.Xml domainSpec with
  | (_, some e) => .error (.err e)
  | (newDomainXML, none) => .ok ⟨newDomainXML⟩

/-- The callback `v1alpha2Server.OnDefineDomain`. -/
def OnDefineDomain (ext : Externals) (params : OnDefineDomainParams) :
    Except PanicValue OnDefineDomainResult :=
  match ext.jsonUnmarshal params.Vmi with
  | (_, some e) => .error (.err e)
  | (vmiSpec, none) =>
    match ext.NewMapXml params.DomainXML with
    | (_, some e) => .error (.err e)
    | (none, none) => .error .nilError
    | (some domainSpec, none) =>
      match mutateDomainSpec (ext.rangeOrder vmiSpec.Annotations) domainSpec with
      | .error p => .error p
      | .ok domainSpec => respond ext domainSpec

/-- The argument entries of a tree: the values at `domain.qemu:commandline.qemu:arg`. -/
def argumentList (domainSpec : Fields) : List Value :=
  (ValuesForPath domainSpec argPath).1

/-- The `value` attribute of an argument entry. -/
def argValue : Value → Option GoString
  | .map f | .mxjMap f =>
    match mapIndex f (ascii "-value") with
    | some (.str s) => some s
    | _ => none
  | _ => none

/-- Whether the parsed document has one `domain` element holding at most one
`qemu:commandline` element, as a libvirt domain document does: neither key holds a list of
repeated elements. -/
def singleCommandline (domainSpec : Fields) : Bool :=
  match mapIndex domainSpec domainKey with
  | some (.list _) => false
  | some (.map dom) =>
    match mapIndex dom commandlineKey with
    | some (.list _) => false
    | _ => true
  | _ => true

/-- The tree `root`, whose `domain` element `dom` holds the block `cmd`, with the `qemu:arg`
key of that block set to `val`. -/
def withArgs (root dom cmd : Fields) (val : Value) : Fields :=
  mapAssign root domainKey
    (.map (mapAssign dom commandlineKey (.map (mapAssign cmd argKey val))))

/-- The entries of a map without the key `k`. -/
def mapErase : Fields → GoString → Fields
  | [], _ => []
  | (k', v) :: rest, k => if k' = k then mapErase rest k else (k', v) :: mapErase rest k

/-- A list member without the key `k`, when the member is a map. -/
def eraseInMember (k : GoString) : Value → Value
  | .map f => .map (mapErase f k)
  | v => v

/-- The tree without what is stored at the path `keys`: the walk of `updateValuesForKeyPath`,
deleting the last key where that function assigns it. -/
def eraseAtPath : Value → List GoString → Value
  | m, [] => m
  | m, [keys0] =>
    match m with
    | .map f => .map (mapErase f keys0)
    | .list l => .list (l.map (eraseInMember keys0))
    | _ => m
  | m, k :: k2 :: ks =>
    match m with
    | .map f =>
      match mapIndex f k with
      | some v => .map (mapAssign f k (eraseAtPath v (k2 :: ks)))
      | none => m
    | .list l =>
      .list (l.map (fun v =>
        match v with
        | .map f =>
          match mapIndex f k with
          | some vv => .map (mapAssign f k (eraseAtPath vv (k2 :: ks)))
          | none => v
        | _ => v))
    | _ => m

/-! ## The keys of a parsed document -/

/-- Whether `k` is a tag `space:local` that `encoding/xml` splits into a name space and a
local name: exactly one colon, with text on both sides of it. -/
def prefixedName (k : GoString) : Bool :=
  k.count 58 == 1 && k.head? != some 58 && k.getLast? != some 58

mutual
/-- Whether every map of the tree is keyed as `mxj.NewMapXml` keys it: an element by
`xml.Name.Local`, which is never a tag `space:local`, an attribute by `-` and its name. -/
def localKeys : Value → Bool
  | .str _ => true
  | .map f => localKeysFields f
  | .mxjMap f => localKeysFields f
  | .list l => localKeysItems l
/-- The keys of the entries of a map, and of the values below them. -/
def localKeysFields : List (GoString × Value) → Bool
  | [] => true
  | (k, v) :: rest =>
    (k.head? == some 45 || !prefixedName k) && localKeys v && localKeysFields rest
/-- The keys in the members of a list. -/
def localKeysItems : List Value → Bool
  | [] => true
  | v :: rest => localKeys v && localKeysItems rest
end

/-- The path under which a parsed document holds its argument entries: the elements
`domain`, `qemu:commandline` and `qemu:arg` under their local names. -/
def parsedArgPath : GoString := ascii "domain.commandline.arg"

/-- The key of the command-line block in a parsed document. -/
def parsedCommandlineKey : GoString := ascii "commandline"

/-- The key of the argument entries in the block of a parsed document. -/
def parsedArgKey : GoString := ascii "arg"

/-- The argument entries a parsed document holds: the values at `parsedArgPath`. -/
def documentArguments (domainSpec : Fields) : List Value :=
  (ValuesForPath domainSpec parsedArgPath).1

/-! ## The spec's wording of the derived entries -/

/-- The prefix-stripping step of the spec, "strip the prefix to obtain the flag name":
the rest of `key` after `marker`, when `key` starts with `marker`. -/
def stripMarker : GoString → GoString → Option GoString
  | [], key => some key
  | _ :: _, [] => none
  | p :: ps, c :: cs => if p = c then stripMarker ps cs else none

/-- The derived values as the spec words them: for each key, in iteration order, whose name
starts with the marker, the value `"-" + flagName + "=" + value`; nothing for the other keys. -/
def specDerived (visited : List (GoString × GoString)) : List GoString :=
  visited.filterMap (fun kv =>
    (stripMarker annotationPrefix kv.1).map
      (fun flagName => ascii "-" ++ flagName ++ ascii "=" ++ kv.2))

/-! ## Sample requests -/

namespace Sample

mutual
/-- A plain rendering of the element `key` with content `v`: attributes are the string
entries whose key starts with `-`, a list repeats the element. -/
def renderValue (key : GoString) : Value → GoString
  | .str s => ascii "<" ++ key ++ ascii ">" ++ s ++ ascii "</" ++ key ++ ascii ">"
  | .map f =>
    ascii "<" ++ key ++ renderAttrs f ++ ascii ">" ++ renderChildren f ++ ascii "</" ++ key
      ++ ascii ">"
  | .mxjMap f =>
    ascii "<" ++ key ++ renderAttrs f ++ ascii ">" ++ renderChildren f ++ ascii "</" ++ key
      ++ ascii ">"
  | .list l => renderItems key l
/-- The attributes of an element. -/
def renderAttrs : List (GoString × Value) → GoString
  | [] => []
  | (k, v) :: rest =>
    (match k, v with
      | 45 :: name, .str s => ascii " " ++ name ++ [61, 34] ++ s ++ [34]
      | _, _ => []) ++ renderAttrs rest
/-- The children of an element. -/
def renderChildren : List (GoString × Value) → GoString
  | [] => []
  | (k, v) :: rest =>
    (match k with
      | 45 :: _ => []
      | _ => renderValue k v) ++ renderChildren rest
/-- The repeated element `key`, once per member. -/
def renderItems (key : GoString) : List Value → GoString
  | [] => []
  | v :: rest => renderValue key v ++ renderItems key rest
end

/-- A serialiser for the samples: renders every key of the root and never fails. -/
def xml (root : Fields) : List UInt8 × Option GoString := (renderChildren root, none)

/-- Externals that decode every request to the VMI `vmi` and to the parse result `doc`, and
visit the annotations in the order they are listed, or in the reverse order. -/
def externals (vmi : VirtualMachineInstance) (doc : Option Fields × Option GoString)
    (reversed : Bool) : Externals where
  jsonUnmarshal := fun _ => (vmi, none)
  rangeOrder := fun m => if reversed then m.reverse else m
  rangeOrder_perm := fun m => by
    cases reversed
    · exact List.Perm.refl m
    · exact List.reverse_perm m
  NewMapXml := fun _ => doc
  Xml := xml

/-- Externals whose VMI decoder fails on every request. -/
def undecodable (doc : Option Fields × Option GoString) : Externals where
  jsonUnmarshal := fun _ => (⟨[]⟩, some (ascii "unexpected end of JSON input"))
  rangeOrder := fun m => m
  rangeOrder_perm := fun m => List.Perm.refl m
  NewMapXml := fun _ => doc
  Xml := xml

/-- A request; the sample externals do not look at its bytes. -/
def request : OnDefineDomainParams := ⟨[], []⟩

/-- The parse of
`<domain><name>vm</name><qemu:commandline><qemu:arg value="-cpu host"/></qemu:commandline></domain>`:
the elements are keyed by their local names. -/
def domainWithArg : Fields :=
  [(ascii "domain", .map
    [(ascii "name", .str (ascii "vm")),
     (ascii "commandline", .map
       [(ascii "arg", .map [(ascii "-value", .str (ascii "-cpu host"))])])])]

/-- The parse of `<domain><name>vm</name></domain>`: no `qemu:commandline` block. -/
def domainNoBlock : Fields :=
  [(ascii "domain", .map [(ascii "name", .str (ascii "vm"))])]

/-- The parse of `<domain><name>vm</name><qemu:commandline/></domain>`: the block is keyed
by its local name, and an element without attributes and children is the empty string. -/
def domainEmptyBlock : Fields :=
  [(ascii "domain", .map
    [(ascii "name", .str (ascii "vm")), (ascii "commandline", .str [])])]

/-- The parse of
`<domain><name>vm</name><qemu:commandline><qemu:env name="A" value="1"/></qemu:commandline></domain>`:
a block without `qemu:arg`, the elements keyed by their local names. -/
def domainEnvOnly : Fields :=
  [(ascii "domain", .map
    [(ascii "name", .str (ascii "vm")),
     (ascii "commandline", .map
       [(ascii "env", .map
         [(ascii "-name", .str (ascii "A")), (ascii "-value", .str (ascii "1"))])])])]

/-- A VMI with the annotations `other.prefix/foo: bar` and
`arg.commandline.vm.kubevirt.io/smp: 4`. -/
def vmiSmp : VirtualMachineInstance :=
  ⟨[(ascii "other.prefix/foo", ascii "bar"),
    (ascii "arg.commandline.vm.kubevirt.io/smp", ascii "4")]⟩

/-- A VMI with the annotations `arg.commandline.vm.kubevirt.io/smp: 4` and
`arg.commandline.vm.kubevirt.io/m: 2G`. -/
def vmiTwoArgs : VirtualMachineInstance :=
  ⟨[(ascii "arg.commandline.vm.kubevirt.io/smp", ascii "4"),
    (ascii "arg.commandline.vm.kubevirt.io/m", ascii "2G")]⟩

/-- A VMI without annotations. -/
def vmiPlain : VirtualMachineInstance := ⟨[]⟩

/-- The `-cpu host` document with the `smp` annotation. -/
def smpOnArg : Externals := externals vmiSmp (some domainWithArg, none) false

/-- The document without block with the `smp` annotation. -/
def smpOnNoBlock : Externals := externals vmiSmp (some domainNoBlock, none) false

/-- The document with an empty block with the `smp` annotation. -/
def smpOnEmptyBlock : Externals := externals vmiSmp (some domainEmptyBlock, none) false

/-- The `-cpu host` document with a VMI without annotations. -/
def plainOnArg : Externals := externals vmiPlain (some domainWithArg, none) false

/-- The `-cpu host` document with two matching annotations, visited as listed. -/
def twoArgsListed : Externals := externals vmiTwoArgs (some domainWithArg, none) false

/-- The `-cpu host` document with two matching annotations, visited in reverse. -/
def twoArgsReversed : Externals := externals vmiTwoArgs (some domainWithArg, none) true

/-- The document without block with two matching annotations, visited as listed. -/
def twoArgsNoBlockListed : Externals := externals vmiTwoArgs (some domainNoBlock, none) false

/-- The document without block with two matching annotations, visited in reverse. -/
def twoArgsNoBlockReversed : Externals := externals vmiTwoArgs (some domainNoBlock, none) true

/-- A domain text with an unterminated element, `<domain><name>vm</name>`: the parser
returns no map and an error. -/
def malformedDomain : Externals :=
  externals vmiSmp (none, some (ascii "xml.Decoder.Token() - XML syntax error: unexpected EOF"))
    false

end Sample

/-! # Theorems -/

/-! ## Strings -/

theorem HasPrefix_iff (s pre : GoString) : HasPrefix s pre = true ↔ ∃ t, s = pre ++ t := by
  unfold HasPrefix
  rw [Bool.and_eq_true, decide_eq_true_eq, beq_iff_eq]
  constructor
  · rintro ⟨_, htake⟩
    refine ⟨s.drop pre.length, ?_⟩
    conv_lhs => rw [← List.take_append_drop pre.length s]
    rw [htake]
  · rintro ⟨t, rfl⟩
    simp

theorem stripMarker_append (pre t : GoString) : stripMarker pre (pre ++ t) = some t := by
  induction pre with
  | nil => cases t <;> rfl
  | cons p ps ih => simp [stripMarker, ih]

theorem stripMarker_eq_some {pre key t : GoString} (h : stripMarker pre key = some t) :
    key = pre ++ t := by
  induction pre generalizing key with
  | nil => cases key <;> simp_all [stripMarker]
  | cons p ps ih =>
    cases key with
    | nil => simp [stripMarker] at h
    | cons c cs =>
      simp only [stripMarker] at h
      split at h
      · rename_i hpc
        rw [hpc, ih h]; rfl
      · cases h

theorem stripMarker_of_not_HasPrefix {pre key : GoString} (h : HasPrefix key pre = false) :
    stripMarker pre key = none := by
  cases hs : stripMarker pre key with
  | none => rfl
  | some t =>
    have := (HasPrefix_iff key pre).2 ⟨t, stripMarker_eq_some hs⟩
    rw [this] at h; cases h

theorem annotationPrefix_length : annotationPrefix.length = 31 := by decide

theorem sliceFrom_marker (flag : GoString) :
    sliceFrom (annotationPrefix ++ flag) 31 = some flag := by
  unfold sliceFrom
  rw [if_pos (by rw [List.length_append, annotationPrefix_length]; omega)]
  rw [← annotationPrefix_length, List.drop_left]

/-! ## The loop over the annotations -/

theorem appendArgs_eq (visited : List (GoString × GoString)) (argsSpec : List Value) :
    appendArgs visited argsSpec = .ok (argsSpec ++ (specDerived visited).map argEntry) := by
  induction visited generalizing argsSpec with
  | nil => simp [appendArgs, specDerived]
  | cons kv rest ih =>
    obtain ⟨key, value⟩ := kv
    unfold appendArgs
    cases hp : HasPrefix key annotationPrefix with
    | false =>
      have hs : stripMarker annotationPrefix key = none := stripMarker_of_not_HasPrefix hp
      simp [ih, specDerived, hs]
    | true =>
      obtain ⟨flag, rfl⟩ := (HasPrefix_iff key annotationPrefix).1 hp
      simp [sliceFrom_marker, ih, specDerived, stripMarker_append]

theorem specDerived_perm {a b : List (GoString × GoString)} (h : a.Perm b) :
    (specDerived a).Perm (specDerived b) :=
  h.filterMap _

/-! ## mxj maps -/

theorem mapIndex_mapAssign_self (f : Fields) (k : GoString) (v : Value) :
    mapIndex (mapAssign f k v) k = some v := by
  induction f with
  | nil => simp [mapAssign, mapIndex]
  | cons e rest ih =>
    obtain ⟨k', v'⟩ := e
    by_cases h : k' = k <;> simp [mapAssign, mapIndex, h, ih]

theorem mapAssign_mapAssign (f : Fields) (k : GoString) (x y : Value) :
    mapAssign (mapAssign f k x) k y = mapAssign f k y := by
  induction f with
  | nil => simp [mapAssign]
  | cons e rest ih =>
    obtain ⟨k', v'⟩ := e
    by_cases h : k' = k <;> simp [mapAssign, h, ih]

theorem mapAssign_same {f : Fields} {k : GoString} {v : Value} (h : mapIndex f k = some v) :
    mapAssign f k v = f := by
  induction f with
  | nil => simp [mapIndex] at h
  | cons e rest ih =>
    obtain ⟨k', v'⟩ := e
    by_cases hk : k' = k
    · simp [mapIndex, hk] at h
      simp [mapAssign, hk, h]
    · simp [mapIndex, hk] at h
      simp [mapAssign, hk, ih h]

theorem mapErase_mapAssign (f : Fields) (k : GoString) (v : Value) :
    mapErase (mapAssign f k v) k = mapErase f k := by
  induction f with
  | nil => simp [mapAssign, mapErase]
  | cons e rest ih =>
    obtain ⟨k', v'⟩ := e
    by_cases h : k' = k <;> simp [mapAssign, mapErase, h, ih]

theorem Split_argPath :
    Split 46 argPath = [domainKey, commandlineKey, argKey] := by decide

theorem pathKeys_argPath :
    pathKeys argPath = [domainKey, commandlineKey, argKey] := by decide

/-! ## The frame of an update -/

theorem eraseInMember_assignInMember (key : GoString) (value v : Value) :
    eraseInMember key (assignInMember key key value v) = eraseInMember key v := by
  cases v with
  | map f =>
    simp only [assignInMember]
    split <;> simp [eraseInMember, mapErase_mapAssign]
  | _ => rfl

theorem eraseAtPath_updateValue (key : GoString) (value m : Value) :
    eraseAtPath (updateValue key value m key).1 [key] = eraseAtPath m [key] := by
  cases m with
  | map f => simp [updateValue, eraseAtPath, mapErase_mapAssign]
  | list l =>
    simp only [updateValue, eraseAtPath, List.map_map]
    congr 1
    apply List.map_congr_left
    intro v _
    exact eraseInMember_assignInMember key value v
  | _ => rfl

theorem eraseAtPath_update (key : GoString) (value : Value) :
    ∀ (keys : List GoString) (m : Value), keys.getLast? = some key →
      eraseAtPath (updateValuesForKeyPath key value m keys).1 keys = eraseAtPath m keys
  | [], _, _ => rfl
  | [keys0], m, h => by
    simp at h
    subst h
    simp only [updateValuesForKeyPath]
    exact eraseAtPath_updateValue keys0 value m
  | k :: k2 :: ks, m, h => by
    have hlast : (k2 :: ks).getLast? = some key := by simpa using h
    have ih := eraseAtPath_update key value (k2 :: ks)
    cases m with
    | map f =>
      simp only [updateValuesForKeyPath, eraseAtPath]
      cases hf : mapIndex f k with
      | none => simp [eraseAtPath, hf]
      | some v =>
        simp [eraseAtPath, mapIndex_mapAssign_self, mapAssign_mapAssign, ih v hlast]
    | list l =>
      simp only [updateValuesForKeyPath, eraseAtPath]
      rw [List.map_map]
      congr 1
      apply List.map_congr_left
      intro v _
      cases v with
      | map f =>
        simp only [Function.comp]
        cases hf : mapIndex f k with
        | none => simp [hf]
        | some vv => simp [mapIndex_mapAssign_self, mapAssign_mapAssign, ih vv hlast]
      | _ => rfl
    | _ => rfl

theorem updateValuesForKeyPath_map (key : GoString) (value : Value) (f : Fields)
    (keys : List GoString) :
    ∃ f', (updateValuesForKeyPath key value (.map f) keys).1 = .map f' := by
  match keys with
  | [] => exact ⟨f, rfl⟩
  | [keys0] =>
    simp only [updateValuesForKeyPath, updateValue]
    split
    · exact ⟨_, rfl⟩
    · split
      · split <;> exact ⟨_, rfl⟩
      · exact ⟨_, rfl⟩
      · exact ⟨_, rfl⟩
  | k :: k2 :: ks =>
    simp only [updateValuesForKeyPath]
    split <;> exact ⟨_, rfl⟩

/-! ## The hook on the shapes of a domain document -/

theorem argumentList_eq (root : Fields) :
    argumentList root = valuesForKeyPath (.map root) [domainKey, commandlineKey, argKey] := by
  unfold argumentList ValuesForPath
  rw [pathKeys_argPath]

theorem UpdateValuesForPath_eq (root : Fields) (val : Value) :
    UpdateValuesForPath root [(argKey, val)] argPath
      = (rootFields root
          (updateValuesForKeyPath argKey val (.map root) [domainKey, commandlineKey, argKey]).1,
         (updateValuesForKeyPath argKey val (.map root) [domainKey, commandlineKey, argKey]).2,
         none) := by
  unfold UpdateValuesForPath
  rw [Split_argPath]

theorem mutateDomainSpec_eq (visited : List (GoString × GoString)) (root : Fields) :
    mutateDomainSpec visited root
      = .ok (UpdateValuesForPath root
          [(argKey, .list (argumentList root ++ (specDerived visited).map argEntry))]
          argPath).1 := by
  unfold mutateDomainSpec
  have hv : ValuesForPath root argPath = (argumentList root, none) := rfl
  rw [hv]
  simp only [appendArgs_eq]
  rw [UpdateValuesForPath_eq]

theorem eraseAtPath_mutate {visited : List (GoString × GoString)} {root root' : Fields}
    (h : mutateDomainSpec visited root = .ok root') :
    eraseAtPath (.map root') (pathKeys argPath) = eraseAtPath (.map root) (pathKeys argPath) := by
  rw [mutateDomainSpec_eq] at h
  injection h with h
  subst h
  rw [UpdateValuesForPath_eq, pathKeys_argPath]
  obtain ⟨f', hf'⟩ := updateValuesForKeyPath_map argKey
    (.list (argumentList root ++ (specDerived visited).map argEntry)) root
    [domainKey, commandlineKey, argKey]
  have hfr := eraseAtPath_update argKey
    (.list (argumentList root ++ (specDerived visited).map argEntry))
    [domainKey, commandlineKey, argKey] (.map root) rfl
  rw [hf'] at hfr
  simp only [hf', rootFields]
  exact hfr

theorem argumentList_block {root dom cmd : Fields}
    (hd : mapIndex root domainKey = some (.map dom))
    (hc : mapIndex dom commandlineKey = some (.map cmd)) :
    argumentList root =
      match mapIndex cmd argKey with
      | some v => valuesForKeyPath v []
      | none => [] := by
  rw [argumentList_eq]
  simp only [valuesForKeyPath, hd, hc]

theorem update_block {root dom cmd : Fields} (val : Value)
    (hd : mapIndex root domainKey = some (.map dom))
    (hc : mapIndex dom commandlineKey = some (.map cmd)) :
    UpdateValuesForPath root [(argKey, val)] argPath
      = (withArgs root dom cmd val, 1, none) := by
  rw [UpdateValuesForPath_eq]
  simp [updateValuesForKeyPath, updateValue, hd, hc, rootFields, withArgs]

theorem argumentList_withArgs (root dom cmd : Fields) (items : List Value) :
    argumentList (withArgs root dom cmd (.list items)) = items := by
  unfold withArgs
  rw [argumentList_block (mapIndex_mapAssign_self _ _ _) (mapIndex_mapAssign_self _ _ _),
    mapIndex_mapAssign_self]
  rfl

/-- On a tree that holds the block under the keys the path of the hook names, the hook
stores the pre-existing entries followed by the derived ones. -/
theorem mutate_block {root dom cmd : Fields} (visited : List (GoString × GoString))
    (hd : mapIndex root domainKey = some (.map dom))
    (hc : mapIndex dom commandlineKey = some (.map cmd)) :
    mutateDomainSpec visited root
      = .ok (withArgs root dom cmd
          (.list (argumentList root ++ (specDerived visited).map argEntry))) := by
  rw [mutateDomainSpec_eq, update_block _ hd hc]

/-- A document with one `domain` element and at most one block either has a block decoded as
a map, or has no argument entry and is left as it is by the update. -/
theorem shape_cases (root : Fields) (h : singleCommandline root = true) :
    (∃ dom cmd, mapIndex root domainKey = some (.map dom)
        ∧ mapIndex dom commandlineKey = some (.map cmd))
      ∨ (argumentList root = []
        ∧ ∀ val, UpdateValuesForPath root [(argKey, val)] argPath = (root, 0, none)) := by
  unfold singleCommandline at h
  simp only [argumentList_eq, UpdateValuesForPath_eq]
  cases hd : mapIndex root domainKey with
  | none =>
    right
    simp [valuesForKeyPath, hd, updateValuesForKeyPath, rootFields]
  | some d =>
    cases d with
    | str s =>
      right
      simp [valuesForKeyPath, hd, updateValuesForKeyPath, rootFields, mapAssign_same hd]
    | mxjMap g =>
      right
      simp [valuesForKeyPath, hd, updateValuesForKeyPath, rootFields, mapAssign_same hd]
    | list l => simp [hd] at h
    | map dom =>
      cases hc : mapIndex dom commandlineKey with
      | none =>
        right
        simp [valuesForKeyPath, hd, hc, updateValuesForKeyPath, rootFields, mapAssign_same hd]
      | some c =>
        cases c with
        | map cmd => exact Or.inl ⟨dom, cmd, rfl, hc⟩
        | list l => simp [hd, hc] at h
        | str s =>
          right
          simp [valuesForKeyPath, hd, hc, updateValuesForKeyPath, updateValue, rootFields,
            mapAssign_same hd, mapAssign_same hc]
        | mxjMap g =>
          right
          simp [valuesForKeyPath, hd, hc, updateValuesForKeyPath, updateValue, rootFields,
            mapAssign_same hd, mapAssign_same hc]

theorem mutate_unchanged {root : Fields} (visited : List (GoString × GoString))
    (hupd : ∀ val, UpdateValuesForPath root [(argKey, val)] argPath = (root, 0, none)) :
    mutateDomainSpec visited root = .ok root := by
  rw [mutateDomainSpec_eq, hupd]

theorem OnDefineDomain_decoded {ext : Externals} {params : OnDefineDomainParams}
    {vmi : VirtualMachineInstance} {root root' : Fields}
    (hvmi : ext.jsonUnmarshal params.Vmi = (vmi, none))
    (hdom : ext.NewMapXml params.DomainXML = (some root, none))
    (hm : mutateDomainSpec (ext.rangeOrder vmi.Annotations) root = .ok root') :
    OnDefineDomain ext params = respond ext root' := by
  simp [OnDefineDomain, hvmi, hdom, hm]

/-! ## The hook on a parsed document -/

theorem commandlineKey_prefixed :
    prefixedName commandlineKey = true ∧ commandlineKey.head? ≠ some 45 := by decide

theorem mapIndex_of_localKeys {f : Fields} {k : GoString} (hf : localKeysFields f = true)
    (hk : prefixedName k = true) (hd : k.head? ≠ some 45) : mapIndex f k = none := by
  induction f with
  | nil => rfl
  | cons e rest ih =>
    obtain ⟨k', v⟩ := e
    simp only [localKeysFields, Bool.and_eq_true, Bool.or_eq_true, beq_iff_eq,
      Bool.not_eq_true'] at hf
    obtain ⟨⟨hkey, _⟩, hrest⟩ := hf
    have hne : k' ≠ k := by
      rintro rfl
      rcases hkey with h | h
      · exact hd h
      · rw [hk] at h; cases h
    simp [mapIndex, hne, ih hrest]

theorem localKeys_of_mapIndex {f : Fields} {k : GoString} {v : Value}
    (hf : localKeysFields f = true) (h : mapIndex f k = some v) : localKeys v = true := by
  induction f with
  | nil => simp [mapIndex] at h
  | cons e rest ih =>
    obtain ⟨k', v'⟩ := e
    simp only [localKeysFields, Bool.and_eq_true] at hf
    by_cases hk : k' = k
    · simp [mapIndex, hk] at h
      rw [← h]; exact hf.1.2
    · simp [mapIndex, hk] at h
      exact ih hf.2 h

theorem values_below_parsed (v : Value) (h : localKeys v = true) :
    valuesForKeyPath v [commandlineKey, argKey] = [] := by
  cases v with
  | str s => rfl
  | mxjMap f => rfl
  | map f =>
    have hf : localKeysFields f = true := by simpa [localKeys] using h
    simp [valuesForKeyPath,
      mapIndex_of_localKeys hf commandlineKey_prefixed.1 commandlineKey_prefixed.2]
  | list l =>
    have hl : localKeysItems l = true := by simpa [localKeys] using h
    simp only [valuesForKeyPath]
    clear h
    induction l with
    | nil => rfl
    | cons m rest ih =>
      simp only [localKeysItems, Bool.and_eq_true] at hl
      rw [List.flatMap_cons, ih hl.2, List.append_nil]
      cases m with
      | map f =>
        have hf : localKeysFields f = true := by simpa [localKeys] using hl.1
        simp [mapIndex_of_localKeys hf commandlineKey_prefixed.1 commandlineKey_prefixed.2]
      | _ => rfl

theorem update_below_parsed (val v : Value) (h : localKeys v = true) :
    updateValuesForKeyPath argKey val v [commandlineKey, argKey] = (v, 0) := by
  cases v with
  | str s => rfl
  | mxjMap f => rfl
  | map f =>
    have hf : localKeysFields f = true := by simpa [localKeys] using h
    simp [updateValuesForKeyPath,
      mapIndex_of_localKeys hf commandlineKey_prefixed.1 commandlineKey_prefixed.2]
  | list l =>
    have hl : localKeysItems l = true := by simpa [localKeys] using h
    simp only [updateValuesForKeyPath]
    clear h
    induction l with
    | nil => rfl
    | cons m rest ih =>
      simp only [localKeysItems, Bool.and_eq_true] at hl
      have ih' := ih hl.2
      simp only [Prod.mk.injEq, Value.list.injEq] at ih'
      simp only [List.map_cons, List.sum_cons, Prod.mk.injEq, Value.list.injEq, List.cons.injEq]
      rw [ih'.1, ih'.2]
      cases m with
      | map f =>
        have hf : localKeysFields f = true := by simpa [localKeys] using hl.1
        simp [mapIndex_of_localKeys hf commandlineKey_prefixed.1 commandlineKey_prefixed.2]
      | _ => simp

theorem update_top {root : Fields} {d : Value} (val : Value)
    (hd : mapIndex root domainKey = some d) :
    updateValuesForKeyPath argKey val (.map root) [domainKey, commandlineKey, argKey]
      = (.map (mapAssign root domainKey
            (updateValuesForKeyPath argKey val d [commandlineKey, argKey]).1),
          (updateValuesForKeyPath argKey val d [commandlineKey, argKey]).2) := by
  rw [updateValuesForKeyPath]
  simp only [hd]

/-- On a tree keyed as the parser keys it, the path of the hook reaches nothing: no value
is read and the update leaves the tree as it is. -/
theorem parsed_tree_unchanged (root : Fields) (h : localKeysFields root = true) :
    argumentList root = []
      ∧ ∀ val, UpdateValuesForPath root [(argKey, val)] argPath = (root, 0, none) := by
  simp only [argumentList_eq, UpdateValuesForPath_eq]
  cases hd : mapIndex root domainKey with
  | none => simp [valuesForKeyPath, hd, updateValuesForKeyPath, rootFields]
  | some d =>
    have hk := localKeys_of_mapIndex h hd
    have hv := values_below_parsed d hk
    constructor
    · simp only [valuesForKeyPath, hd] at hv ⊢
      exact hv
    · intro val
      rw [update_top val hd, update_below_parsed val d hk]
      simp [rootFields, mapAssign_same hd]

theorem mutate_parsed {root : Fields} (visited : List (GoString × GoString))
    (h : localKeysFields root = true) : mutateDomainSpec visited root = .ok root :=
  mutate_unchanged visited (parsed_tree_unchanged root h).2

/-! ## The claims -/

/-- C1, at the failing input: in the parse of
`<domain><name>vm</name><qemu:commandline><qemu:arg value="-cpu host"/></qemu:commandline></domain>`
the entry `-cpu host` is stored under the local names `domain.commandline.arg`, so the path
`domain.qemu:commandline.qemu:arg` of the hook reads no entry and its update reaches no key:
with the annotation `arg.commandline.vm.kubevirt.io/smp = 4` the loop derives `-smp=4`, but
the hook serialises the parsed tree unchanged, whose argument list is still `-cpu host`
alone, where the claim has `-cpu host`, `-smp=4`. -/
theorem C1_derived_entry_not_stored :
    localKeysFields Sample.domainWithArg = true
      ∧ documentArguments Sample.domainWithArg
          = [.map [(ascii "-value", .str (ascii "-cpu host"))]]
      ∧ argumentList Sample.domainWithArg = []
      ∧ appendArgs (Sample.smpOnArg.rangeOrder Sample.vmiSmp.Annotations) []
          = .ok [argEntry (ascii "-smp=4")]
      ∧ mutateDomainSpec (Sample.smpOnArg.rangeOrder Sample.vmiSmp.Annotations)
          Sample.domainWithArg = .ok Sample.domainWithArg
      ∧ OnDefineDomain Sample.smpOnArg Sample.request
          = respond Sample.smpOnArg Sample.domainWithArg
      ∧ (documentArguments Sample.domainWithArg).map argValue = [some (ascii "-cpu host")]
      ∧ (documentArguments Sample.domainWithArg).map argValue
          ≠ [some (ascii "-cpu host"), some (ascii "-smp=4")] := by
  decide

/-- C3 fails on a document without block: for `<domain><name>vm</name></domain>` and the
annotation `arg.commandline.vm.kubevirt.io/smp = 4` the loop derives the entry `-smp=4`, but
`UpdateValuesForPath` finds no `qemu:commandline` key to walk through and updates nothing:
the hook serialises the tree as it was parsed, without block and without argument. -/
theorem C3_counterexample :
    mapIndex Sample.domainNoBlock domainKey = some (.map [(ascii "name", .str (ascii "vm"))])
      ∧ mapIndex [(ascii "name", Value.str (ascii "vm"))] commandlineKey = none
      ∧ appendArgs (Sample.smpOnNoBlock.rangeOrder Sample.vmiSmp.Annotations) []
          = .ok [argEntry (ascii "-smp=4")]
      ∧ mutateDomainSpec (Sample.smpOnNoBlock.rangeOrder Sample.vmiSmp.Annotations)
          Sample.domainNoBlock = .ok Sample.domainNoBlock
      ∧ argumentList Sample.domainNoBlock = []
      ∧ OnDefineDomain Sample.smpOnNoBlock Sample.request
          = .ok ⟨ascii "<domain><name>vm</name></domain>"⟩ := by
  decide

/-- C3, amended: for a domain document without `qemu:commandline` block under `domain`,
the update changes nothing: `OnDefineDomain` serialises the parsed tree unchanged, in which
there is still no argument entry, whatever the annotations are. -/
theorem C3_absent_block_unchanged (ext : Externals) (params : OnDefineDomainParams)
    (vmi : VirtualMachineInstance) (root dom : Fields)
    (hvmi : ext.jsonUnmarshal params.Vmi = (vmi, none))
    (hdom : ext.NewMapXml params.DomainXML = (some root, none))
    (hd : mapIndex root domainKey = some (.map dom))
    (hc : mapIndex dom commandlineKey = none) :
    mutateDomainSpec (ext.rangeOrder vmi.Annotations) root = .ok root
      ∧ OnDefineDomain ext params = respond ext root
      ∧ argumentList root = [] := by
  have hwf : singleCommandline root = true := by simp [singleCommandline, hd, hc]
  rcases shape_cases root hwf with ⟨dom', cmd, hd', hc'⟩ | ⟨hempty, hupd⟩
  · rw [hd] at hd'
    injection hd' with hd'
    injection hd' with hd'
    subst hd'
    rw [hc] at hc'
    cases hc'
  · exact ⟨mutate_unchanged _ hupd,
      OnDefineDomain_decoded hvmi hdom (mutate_unchanged _ hupd), hempty⟩

theorem C3_absent_block_unchanged_witness :
    mapIndex Sample.domainNoBlock domainKey = some (.map [(ascii "name", .str (ascii "vm"))])
      ∧ mapIndex [(ascii "name", Value.str (ascii "vm"))] commandlineKey = none
      ∧ mutateDomainSpec (Sample.smpOnNoBlock.rangeOrder Sample.vmiSmp.Annotations)
          Sample.domainNoBlock = .ok Sample.domainNoBlock
      ∧ OnDefineDomain Sample.smpOnNoBlock Sample.request
          = respond Sample.smpOnNoBlock Sample.domainNoBlock
      ∧ argumentList Sample.domainNoBlock = [] :=
  ⟨by decide, by decide,
    C3_absent_block_unchanged Sample.smpOnNoBlock Sample.request Sample.vmiSmp
      Sample.domainNoBlock [(ascii "name", .str (ascii "vm"))] rfl rfl (by decide) (by decide)⟩

/-- C4: for every parsed domain document and every annotation map, the tree that
`OnDefineDomain` serialises and the parsed tree are the same once what is stored under the
last key of `domain.qemu:commandline.qemu:arg` is left out: every other key, attribute and
sibling, in `domain`, in `qemu:commandline` and below, is unchanged. -/
theorem C4_only_the_argument_list_changes (ext : Externals) (params : OnDefineDomainParams)
    (vmi : VirtualMachineInstance) (root : Fields)
    (hvmi : ext.jsonUnmarshal params.Vmi = (vmi, none))
    (hdom : ext.NewMapXml params.DomainXML = (some root, none)) :
    ∃ root', mutateDomainSpec (ext.rangeOrder vmi.Annotations) root = .ok root'
      ∧ OnDefineDomain ext params = respond ext root'
      ∧ eraseAtPath (.map root') (pathKeys argPath)
          = eraseAtPath (.map root) (pathKeys argPath) :=
  ⟨_, mutateDomainSpec_eq _ _,
    OnDefineDomain_decoded hvmi hdom (mutateDomainSpec_eq _ _),
    eraseAtPath_mutate (mutateDomainSpec_eq _ _)⟩

theorem C4_only_the_argument_list_changes_witness :
    Sample.smpOnArg.jsonUnmarshal Sample.request.Vmi = (Sample.vmiSmp, none)
      ∧ Sample.smpOnArg.NewMapXml Sample.request.DomainXML = (some Sample.domainWithArg, none)
      ∧ ∃ root', mutateDomainSpec (Sample.smpOnArg.rangeOrder Sample.vmiSmp.Annotations)
            Sample.domainWithArg = .ok root'
        ∧ OnDefineDomain Sample.smpOnArg Sample.request = respond Sample.smpOnArg root'
        ∧ eraseAtPath (.map root') (pathKeys argPath)
            = eraseAtPath (.map Sample.domainWithArg) (pathKeys argPath) :=
  ⟨rfl, rfl,
    C4_only_the_argument_list_changes Sample.smpOnArg Sample.request Sample.vmiSmp
      Sample.domainWithArg rfl rfl⟩

/-- C5: with an empty annotation map, for every parsed domain document, the loop derives no
entry and the update changes nothing: `OnDefineDomain` serialises exactly the tree the parser
returned, so no argument entry is added and nothing of the document is lost, whether its
argument list holds several entries, one entry or none. -/
theorem C5_empty_annotations_keep_document (ext : Externals) (params : OnDefineDomainParams)
    (vmi : VirtualMachineInstance) (root : Fields)
    (hvmi : ext.jsonUnmarshal params.Vmi = (vmi, none))
    (hdom : ext.NewMapXml params.DomainXML = (some root, none))
    (hkeys : localKeysFields root = true)
    (hann : vmi.Annotations = []) :
    appendArgs (ext.rangeOrder vmi.Annotations) [] = .ok []
      ∧ mutateDomainSpec (ext.rangeOrder vmi.Annotations) root = .ok root
      ∧ OnDefineDomain ext params = respond ext root := by
  have hnil : ext.rangeOrder vmi.Annotations = [] := by
    have := ext.rangeOrder_perm vmi.Annotations
    rw [hann] at this ⊢
    exact this.eq_nil
  refine ⟨by rw [hnil]; rfl, mutate_parsed _ hkeys, ?_⟩
  exact OnDefineDomain_decoded hvmi hdom (mutate_parsed _ hkeys)

theorem C5_empty_annotations_keep_document_witness :
    localKeysFields Sample.domainWithArg = true ∧ Sample.vmiPlain.Annotations = []
      ∧ appendArgs (Sample.plainOnArg.rangeOrder Sample.vmiPlain.Annotations) [] = .ok []
      ∧ mutateDomainSpec (Sample.plainOnArg.rangeOrder Sample.vmiPlain.Annotations)
          Sample.domainWithArg = .ok Sample.domainWithArg
      ∧ OnDefineDomain Sample.plainOnArg Sample.request
          = respond Sample.plainOnArg Sample.domainWithArg :=
  ⟨by decide, rfl,
    C5_empty_annotations_keep_document Sample.plainOnArg Sample.request Sample.vmiPlain
      Sample.domainWithArg rfl rfl (by decide) rfl⟩

/-- C6 fails on an empty block: the parse of
`<domain><name>vm</name><qemu:commandline/></domain>` holds the empty string under
`commandline`; with the annotation `arg.commandline.vm.kubevirt.io/smp = 4` the loop derives
`-smp=4` and the hook does not fail, but its update finds nothing to assign `qemu:arg` in:
it serialises the parsed tree unchanged, which holds no argument entry. -/
theorem C6_counterexample :
    localKeysFields Sample.domainEmptyBlock = true
      ∧ mapIndex Sample.domainEmptyBlock domainKey
          = some (.map [(ascii "name", .str (ascii "vm")), (parsedCommandlineKey, .str [])])
      ∧ appendArgs (Sample.smpOnEmptyBlock.rangeOrder Sample.vmiSmp.Annotations) []
          = .ok [argEntry (ascii "-smp=4")]
      ∧ mutateDomainSpec (Sample.smpOnEmptyBlock.rangeOrder Sample.vmiSmp.Annotations)
          Sample.domainEmptyBlock = .ok Sample.domainEmptyBlock
      ∧ OnDefineDomain Sample.smpOnEmptyBlock Sample.request
          = respond Sample.smpOnEmptyBlock Sample.domainEmptyBlock
      ∧ documentArguments Sample.domainEmptyBlock = []
      ∧ argumentList Sample.domainEmptyBlock = [] := by
  decide

theorem pathKeys_parsedArgPath :
    pathKeys parsedArgPath = [domainKey, parsedCommandlineKey, parsedArgKey] := by decide

/-- C6, amended: for a parsed domain document whose `qemu:commandline` block is present and
has no `qemu:arg` child, `OnDefineDomain` does not fail at the update and the argument list
is read as empty; when the block is empty, the tree it serialises is the parsed tree
unchanged, which holds no argument entry. -/
theorem C6_block_without_arguments (ext : Externals) (params : OnDefineDomainParams)
    (vmi : VirtualMachineInstance) (root dom : Fields) (blk : Value)
    (hvmi : ext.jsonUnmarshal params.Vmi = (vmi, none))
    (hdom : ext.NewMapXml params.DomainXML = (some root, none))
    (hkeys : localKeysFields root = true)
    (hd : mapIndex root domainKey = some (.map dom))
    (hb : mapIndex dom parsedCommandlineKey = some blk)
    (ha : valuesForKeyPath blk [parsedArgKey] = []) :
    argumentList root = [] ∧ documentArguments root = []
      ∧ ∃ root', mutateDomainSpec (ext.rangeOrder vmi.Annotations) root = .ok root'
        ∧ OnDefineDomain ext params = respond ext root'
        ∧ ∀ s, blk = .str s → root' = root ∧ documentArguments root' = [] := by
  have hdoc : documentArguments root = [] := by
    unfold documentArguments ValuesForPath
    rw [pathKeys_parsedArgPath]
    simp only [valuesForKeyPath, hd, hb]
    exact ha
  exact ⟨(parsed_tree_unchanged root hkeys).1, hdoc, root, mutate_parsed _ hkeys,
    OnDefineDomain_decoded hvmi hdom (mutate_parsed _ hkeys), fun _ _ => ⟨rfl, hdoc⟩⟩

theorem C6_block_without_arguments_witness :
    localKeysFields Sample.domainEmptyBlock = true
      ∧ mapIndex Sample.domainEmptyBlock domainKey
          = some (.map [(ascii "name", .str (ascii "vm")), (parsedCommandlineKey, .str [])])
      ∧ mapIndex [(ascii "name", Value.str (ascii "vm")), (parsedCommandlineKey, Value.str [])]
          parsedCommandlineKey = some (.str [])
      ∧ valuesForKeyPath (.str []) [parsedArgKey] = []
      ∧ argumentList Sample.domainEmptyBlock = [] ∧ documentArguments Sample.domainEmptyBlock = []
      ∧ ∃ root', mutateDomainSpec (Sample.smpOnEmptyBlock.rangeOrder Sample.vmiSmp.Annotations)
            Sample.domainEmptyBlock = .ok root'
        ∧ OnDefineDomain Sample.smpOnEmptyBlock Sample.request
            = respond Sample.smpOnEmptyBlock root'
        ∧ ∀ s, Value.str [] = .str s
            → root' = Sample.domainEmptyBlock ∧ documentArguments root' = [] :=
  ⟨by decide, by decide, by decide, by decide,
    C6_block_without_arguments Sample.smpOnEmptyBlock Sample.request Sample.vmiSmp
      Sample.domainEmptyBlock
      [(ascii "name", .str (ascii "vm")), (parsedCommandlineKey, .str [])] (.str [])
      rfl rfl (by decide) (by decide) (by decide) (by decide)⟩

theorem specDerived_length (l : List (GoString × GoString)) :
    (specDerived l).length = (l.filter (fun kv => HasPrefix kv.1 annotationPrefix)).length := by
  induction l with
  | nil => rfl
  | cons kv rest ih =>
    cases hp : HasPrefix kv.1 annotationPrefix with
    | false =>
      have hs := stripMarker_of_not_HasPrefix hp
      simpa [specDerived, hs, hp] using ih
    | true =>
      obtain ⟨t, ht⟩ := (HasPrefix_iff kv.1 annotationPrefix).1 hp
      have hs : stripMarker annotationPrefix kv.1 = some t := ht ▸ stripMarker_append _ _
      simpa [specDerived, hs, hp] using ih

/-- C7: when `json.Unmarshal` reports an error on the VMI description, or `mxj.NewMapXml`
reports an error or returns no map for the domain document, `OnDefineDomain` panics: it
returns no result, in particular not the original text. -/
theorem C7_decoding_failure_panics (ext : Externals) (params : OnDefineDomainParams)
    (h : (ext.jsonUnmarshal params.Vmi).2 ≠ none
      ∨ (ext.NewMapXml params.DomainXML).2 ≠ none
      ∨ (ext.NewMapXml params.DomainXML).1 = none) :
    (∃ p, OnDefineDomain ext params = .error p)
      ∧ ∀ result, OnDefineDomain ext params ≠ .ok result := by
  have hp : ∃ p, OnDefineDomain ext params = .error p := by
    unfold OnDefineDomain
    rcases hj : ext.jsonUnmarshal params.Vmi with ⟨vmiSpec, _ | e⟩
    · rcases hx : ext.NewMapXml params.DomainXML with ⟨_ | domainSpec, _ | e⟩
      · exact ⟨_, rfl⟩
      · exact ⟨_, rfl⟩
      · simp [hj, hx] at h
      · exact ⟨_, rfl⟩
    · exact ⟨_, rfl⟩
  obtain ⟨p, hp⟩ := hp
  exact ⟨⟨p, hp⟩, fun result hr => by rw [hp] at hr; cases hr⟩

theorem C7_decoding_failure_panics_witness :
    ((Sample.malformedDomain.jsonUnmarshal Sample.request.Vmi).2 ≠ none
        ∨ (Sample.malformedDomain.NewMapXml Sample.request.DomainXML).2 ≠ none
        ∨ (Sample.malformedDomain.NewMapXml Sample.request.DomainXML).1 = none)
      ∧ (∃ p, OnDefineDomain Sample.malformedDomain Sample.request = .error p)
      ∧ ∀ result, OnDefineDomain Sample.malformedDomain Sample.request ≠ .ok result :=
  ⟨Or.inr (Or.inr rfl),
    C7_decoding_failure_panics Sample.malformedDomain Sample.request (Or.inr (Or.inr rfl))⟩

theorem sample_env_only_unchanged :
    localKeysFields Sample.domainEnvOnly = true
      ∧ appendArgs Sample.vmiSmp.Annotations [] = .ok [argEntry (ascii "-smp=4")]
      ∧ mutateDomainSpec Sample.vmiSmp.Annotations Sample.domainEnvOnly
          = .ok Sample.domainEnvOnly := by
  decide

theorem sample_undecodable_vmi :
    OnDefineDomain (Sample.undecodable (some Sample.domainWithArg, none)) Sample.request
      = .error (.err (ascii "unexpected end of JSON input")) := by
  decide

/-- C8 fails on a document without block: for `<domain><name>vm</name></domain>` and the
annotations `smp = 4`, `m = 2G`, the loop derives two entries in either order of visit, but
both runs serialise the parsed tree unchanged, which holds no argument entry: the matching
keys contribute no entry to the argument list of the returned document. -/
theorem C8_counterexample :
    appendArgs (Sample.twoArgsNoBlockListed.rangeOrder Sample.vmiTwoArgs.Annotations) []
        = .ok [argEntry (ascii "-smp=4"), argEntry (ascii "-m=2G")]
      ∧ appendArgs (Sample.twoArgsNoBlockReversed.rangeOrder Sample.vmiTwoArgs.Annotations) []
        = .ok [argEntry (ascii "-m=2G"), argEntry (ascii "-smp=4")]
      ∧ mutateDomainSpec (Sample.twoArgsNoBlockListed.rangeOrder Sample.vmiTwoArgs.Annotations)
          Sample.domainNoBlock = .ok Sample.domainNoBlock
      ∧ mutateDomainSpec
          (Sample.twoArgsNoBlockReversed.rangeOrder Sample.vmiTwoArgs.Annotations)
          Sample.domainNoBlock = .ok Sample.domainNoBlock
      ∧ OnDefineDomain Sample.twoArgsNoBlockListed Sample.request
          = respond Sample.twoArgsNoBlockListed Sample.domainNoBlock
      ∧ OnDefineDomain Sample.twoArgsNoBlockReversed Sample.request
          = respond Sample.twoArgsNoBlockReversed Sample.domainNoBlock
      ∧ documentArguments Sample.domainNoBlock = []
      ∧ argumentList Sample.domainNoBlock = [] := by
  decide

/-- C8, amended: for two runs of `OnDefineDomain` on the same VMI and the same parsed domain
document that visit the annotation map in two orders, the loop derives lists `D₁` and `D₂`
that are permutations of each other, with one entry per matching key, and the argument lists
of the two serialised trees are the pre-existing entries followed by tails `T₁` and `T₂` that
are permutations of each other; a derived entry is stored at most once, and not at all when
the document has no `qemu:commandline` block. -/
theorem C8_iteration_order_permutes_tail (ext₁ ext₂ : Externals)
    (params : OnDefineDomainParams) (vmi : VirtualMachineInstance) (root : Fields)
    (hvmi₁ : ext₁.jsonUnmarshal params.Vmi = (vmi, none))
    (hvmi₂ : ext₂.jsonUnmarshal params.Vmi = (vmi, none))
    (hdom₁ : ext₁.NewMapXml params.DomainXML = (some root, none))
    (hdom₂ : ext₂.NewMapXml params.DomainXML = (some root, none))
    (hkeys : localKeysFields root = true) :
    ∃ D₁ D₂ r₁ r₂ T₁ T₂,
      appendArgs (ext₁.rangeOrder vmi.Annotations) [] = .ok D₁
      ∧ appendArgs (ext₂.rangeOrder vmi.Annotations) [] = .ok D₂
      ∧ D₁.Perm D₂
      ∧ D₁.length = (vmi.Annotations.filter (fun kv => HasPrefix kv.1 annotationPrefix)).length
      ∧ mutateDomainSpec (ext₁.rangeOrder vmi.Annotations) root = .ok r₁
      ∧ mutateDomainSpec (ext₂.rangeOrder vmi.Annotations) root = .ok r₂
      ∧ OnDefineDomain ext₁ params = respond ext₁ r₁
      ∧ OnDefineDomain ext₂ params = respond ext₂ r₂
      ∧ documentArguments r₁ = documentArguments root ++ T₁
      ∧ documentArguments r₂ = documentArguments root ++ T₂
      ∧ argumentList r₁ = argumentList root ++ T₁
      ∧ argumentList r₂ = argumentList root ++ T₂
      ∧ T₁.Perm T₂ ∧ T₁.Sublist D₁ ∧ T₂.Sublist D₂
      ∧ (∀ dom, mapIndex root domainKey = some (.map dom)
          → mapIndex dom parsedCommandlineKey = none → T₁ = [] ∧ T₂ = []) := by
  have hperm : (ext₁.rangeOrder vmi.Annotations).Perm (ext₂.rangeOrder vmi.Annotations) :=
    (ext₁.rangeOrder_perm _).trans (ext₂.rangeOrder_perm _).symm
  have hD : ((specDerived (ext₁.rangeOrder vmi.Annotations)).map argEntry).Perm
      ((specDerived (ext₂.rangeOrder vmi.Annotations)).map argEntry) :=
    (specDerived_perm hperm).map _
  have hlen : ((specDerived (ext₁.rangeOrder vmi.Annotations)).map argEntry).length
      = (vmi.Annotations.filter (fun kv => HasPrefix kv.1 annotationPrefix)).length := by
    rw [List.length_map, (specDerived_perm (ext₁.rangeOrder_perm vmi.Annotations)).length_eq,
      specDerived_length]
  have hm₁ := mutate_parsed (ext₁.rangeOrder vmi.Annotations) hkeys
  have hm₂ := mutate_parsed (ext₂.rangeOrder vmi.Annotations) hkeys
  exact ⟨_, _, root, root, [], [], by rw [appendArgs_eq]; rfl, by rw [appendArgs_eq]; rfl,
    hD, hlen, hm₁, hm₂, OnDefineDomain_decoded hvmi₁ hdom₁ hm₁,
    OnDefineDomain_decoded hvmi₂ hdom₂ hm₂, by simp, by simp, by simp, by simp,
    List.Perm.refl _, List.nil_sublist _, List.nil_sublist _, fun _ _ _ => ⟨rfl, rfl⟩⟩

theorem C8_iteration_order_permutes_tail_witness :
    localKeysFields Sample.domainWithArg = true
      ∧ ∃ D₁ D₂ r₁ r₂ T₁ T₂,
        appendArgs (Sample.twoArgsListed.rangeOrder Sample.vmiTwoArgs.Annotations) [] = .ok D₁
        ∧ appendArgs (Sample.twoArgsReversed.rangeOrder Sample.vmiTwoArgs.Annotations) []
            = .ok D₂
        ∧ D₁.Perm D₂
        ∧ D₁.length = (Sample.vmiTwoArgs.Annotations.filter
            (fun kv => HasPrefix kv.1 annotationPrefix)).length
        ∧ mutateDomainSpec (Sample.twoArgsListed.rangeOrder Sample.vmiTwoArgs.Annotations)
            Sample.domainWithArg = .ok r₁
        ∧ mutateDomainSpec (Sample.twoArgsReversed.rangeOrder Sample.vmiTwoArgs.Annotations)
            Sample.domainWithArg = .ok r₂
        ∧ OnDefineDomain Sample.twoArgsListed Sample.request = respond Sample.twoArgsListed r₁
        ∧ OnDefineDomain Sample.twoArgsReversed Sample.request
            = respond Sample.twoArgsReversed r₂
        ∧ documentArguments r₁ = documentArguments Sample.domainWithArg ++ T₁
        ∧ documentArguments r₂ = documentArguments Sample.domainWithArg ++ T₂
        ∧ argumentList r₁ = argumentList Sample.domainWithArg ++ T₁
        ∧ argumentList r₂ = argumentList Sample.domainWithArg ++ T₂
        ∧ T₁.Perm T₂ ∧ T₁.Sublist D₁ ∧ T₂.Sublist D₂
        ∧ (∀ dom, mapIndex Sample.domainWithArg domainKey = some (.map dom)
            → mapIndex dom parsedCommandlineKey = none → T₁ = [] ∧ T₂ = []) :=
  ⟨by decide,
    C8_iteration_order_permutes_tail Sample.twoArgsListed Sample.twoArgsReversed Sample.request
      Sample.vmiTwoArgs Sample.domainWithArg rfl rfl rfl rfl (by decide)⟩

/-- C10: the prefix `arg.commandline.vm.kubevirt.io/` is 31 bytes long, so for every key
that passes `HasPrefix` the slice `key[31:]` is in range, the prefix followed by the slice is
the key, and the loop appends the entry `"-" + key[31:] + "=" + value` without panic; the
key equal to the bare prefix gives the entry `"-=" + value`. -/
theorem C10_slice_offset_is_prefix_length (key value : GoString)
    (h : HasPrefix key annotationPrefix = true) :
    annotationPrefix.length = 31
      ∧ (∃ flag, sliceFrom key 31 = some flag
          ∧ annotationPrefix ++ flag = key
          ∧ appendArgs [(key, value)] [] = .ok [argEntry (ascii "-" ++ flag ++ ascii "=" ++ value)])
      ∧ appendArgs [(annotationPrefix, value)] [] = .ok [argEntry (ascii "-=" ++ value)] := by
  refine ⟨annotationPrefix_length, ?_, ?_⟩
  · obtain ⟨flag, rfl⟩ := (HasPrefix_iff key annotationPrefix).1 h
    refine ⟨flag, sliceFrom_marker flag, rfl, ?_⟩
    rw [appendArgs_eq]
    simp [specDerived, stripMarker_append]
  · rw [appendArgs_eq]
    have hs : stripMarker annotationPrefix annotationPrefix = some [] := by decide
    simp [specDerived, hs]
    rfl

theorem C10_slice_offset_is_prefix_length_witness :
    HasPrefix annotationPrefix annotationPrefix = true
      ∧ annotationPrefix.length = 31
      ∧ (∃ flag, sliceFrom annotationPrefix 31 = some flag
          ∧ annotationPrefix ++ flag = annotationPrefix
          ∧ appendArgs [(annotationPrefix, ascii "4")] []
              = .ok [argEntry (ascii "-" ++ flag ++ ascii "=" ++ ascii "4")])
      ∧ appendArgs [(annotationPrefix, ascii "4")] [] = .ok [argEntry (ascii "-=" ++ ascii "4")] :=
  ⟨by decide, C10_slice_offset_is_prefix_length annotationPrefix (ascii "4") (by decide)⟩

end CommandlineHook
